import Mathlib

/-!
Verification of the corpus-partitioning and training pipeline
(`splitting_data/split_data.py` and `train_forward.py`).

The Python code is shallowly embedded: dataframes become lists of rows,
`collections.Counter` objects become association lists from words to
integers, and fallible code returns `Except`.  Machine reals never enter
the properties below; all relevant arithmetic is integer arithmetic
(`math.ceil(a / b)` on integers is modelled exactly as the floor division
`(a + b - 1) / b`).
-/

/-- A Python `collections.Counter` (string keys, integer values), modelled
as an association list in insertion order; the first binding of a key wins.
This mirrors the word counters used throughout `splitting_data/split_data.py`. -/
abbrev Counter := List (String × Int)

/-- First binding of key `w`, if any (Python dict lookup). -/
def Counter.find? : Counter → String → Option Int
  | [], _ => none
  | (k, v) :: t, w => if k = w then some v else Counter.find? t w

/-- Python `counter[w]`: a missing key reads as `0`. -/
def Counter.get (c : Counter) (w : String) : Int :=
  (c.find? w).getD 0

/-- Python `w in counter`. -/
def Counter.mem (c : Counter) (w : String) : Bool :=
  (c.find? w).isSome

/-- Python `counter[w] = v`: replaces the first binding of `w`, or inserts
a new binding if `w` is absent. -/
def Counter.set : Counter → String → Int → Counter
  | [], w, v => [(w, v)]
  | (k, x) :: t, w, v => if k = w then (k, v) :: t else (k, x) :: Counter.set t w v

/-- Python `del counter[w]`: removes the first binding of `w`, if present. -/
def Counter.erase : Counter → String → Counter
  | [], _ => []
  | (k, x) :: t, w => if k = w then t else (k, x) :: Counter.erase t w

/-- Well-formedness of a raw word counter, the data-model invariant of the
spec: keys are distinct and every stored count is at least 1 (zero-count
entries are removed). -/
def Counter.WF (c : Counter) : Prop :=
  (c.map Prod.fst).Nodup ∧ ∀ p ∈ c, 1 ≤ p.2

/-- One step of the correction loops in `split_words`
(`split_data.py` lines 29–42):
`if word in words: words[word] -= 1; if words[word] == 0: del words[word]`. -/
def removeOneCount (words : Counter) (word : String) : Counter :=
  if words.mem word then
    let words' := words.set word (words.get word - 1)
    if words'.get word = 0 then words'.erase word else words'
  else words

/-- The two correction passes of `split_words`: every listed occurrence in
the incongruent-words list is removed first, then every listed occurrence
in the duplicate-vectors list (`split_data.py` lines 29–43). -/
def removeCorrections (words : Counter) (incongruent_words dublicate_vectors : List String) :
    Counter :=
  dublicate_vectors.foldl removeOneCount (incongruent_words.foldl removeOneCount words)

/-- The per-word quota computation of `split_words`
(`split_data.py` lines 46–64): `ten_percent = math.ceil(word_count / 10)`;
test takes `ten_percent if ten_percent > 1 else 1`; validation takes
`min(ten_percent, math.ceil(remaining / 2))`; training takes the rest. -/
def split_words_quota (word_count : Int) : Int × Int × Int :=
  let ten_percent := (word_count + 9) / 10
  let word_amount_for_test := if ten_percent > 1 then ten_percent else 1
  let rest_after_test := word_count - word_amount_for_test
  let word_amount_for_validation :=
    if ten_percent < (rest_after_test + 1) / 2 then ten_percent
    else (rest_after_test + 1) / 2
  let rest_after_validation := rest_after_test - word_amount_for_validation
  (word_amount_for_test, word_amount_for_validation, rest_after_validation)

/-- C1: for every word with post-correction count `c ≥ 1`, the quota
computation in `split_words` yields three non-negative quotas with
`test + validation + training = c` and `test ≥ 1`; in particular
`c = 1` yields `(1, 0, 0)`, `c = 10` yields `(1, 1, 8)` and `c = 100`
yields `(10, 10, 80)`. -/
theorem c1_split_words_quota (c : Int) (h : 1 ≤ c) :
    (split_words_quota c).1 + (split_words_quota c).2.1 + (split_words_quota c).2.2 = c ∧
    1 ≤ (split_words_quota c).1 ∧ 0 ≤ (split_words_quota c).2.1 ∧
    0 ≤ (split_words_quota c).2.2 ∧
    split_words_quota 1 = (1, 0, 0) ∧ split_words_quota 10 = (1, 1, 8) ∧
    split_words_quota 100 = (10, 10, 80) := by
  refine ⟨?_, ?_, ?_, ?_, by decide, by decide, by decide⟩ <;>
    · unfold split_words_quota
      simp only []
      split_ifs <;> omega

/-- Witness for C1 at the concrete count `c = 7`. -/
theorem c1_split_words_quota_witness :
    (split_words_quota 7).1 + (split_words_quota 7).2.1 + (split_words_quota 7).2.2 = 7 ∧
    1 ≤ (split_words_quota 7).1 := by
  have h := c1_split_words_quota 7 (by decide)
  exact ⟨h.1, h.2.1⟩

theorem Counter.find?_mem {c : Counter} {w : String} {v : Int}
    (h : c.find? w = some v) : (w, v) ∈ c := by
  induction c with
  | nil => simp [Counter.find?] at h
  | cons p t ih =>
    obtain ⟨k, x⟩ := p
    by_cases hk : k = w
    · subst hk
      simp [Counter.find?] at h
      simp [h]
    · simp only [Counter.find?, if_neg hk] at h
      exact List.mem_cons_of_mem _ (ih h)

theorem Counter.get_pos_of_wf {c : Counter} (h : c.WF) {w : String}
    (hm : c.mem w = true) : 1 ≤ c.get w := by
  unfold Counter.mem at hm
  unfold Counter.get
  cases hf : c.find? w with
  | none => rw [hf] at hm; simp at hm
  | some v =>
    have := h.2 _ (Counter.find?_mem hf)
    simpa using this

theorem Counter.find?_set_self (c : Counter) (w : String) (v : Int) :
    (c.set w v).find? w = some v := by
  induction c with
  | nil => simp [Counter.set, Counter.find?]
  | cons p t ih =>
    obtain ⟨k, x⟩ := p
    by_cases hk : k = w
    · simp [Counter.set, Counter.find?, hk]
    · simp [Counter.set, Counter.find?, hk, ih]

theorem Counter.find?_set_ne (c : Counter) {w x : String} (v : Int) (hne : x ≠ w) :
    (c.set w v).find? x = c.find? x := by
  have hwx : w ≠ x := Ne.symm hne
  induction c with
  | nil => simp [Counter.set, Counter.find?, hwx]
  | cons p t ih =>
    obtain ⟨k, y⟩ := p
    by_cases hk : k = w
    · subst hk
      simp [Counter.set, Counter.find?, hwx]
    · simp only [Counter.set, if_neg hk, Counter.find?]
      by_cases hx : k = x
      · simp [hx]
      · simp [hx, ih]

theorem Counter.get_set_self (c : Counter) (w : String) (v : Int) :
    (c.set w v).get w = v := by
  simp [Counter.get, Counter.find?_set_self]

theorem Counter.get_set_ne (c : Counter) {w x : String} (v : Int) (hne : x ≠ w) :
    (c.set w v).get x = c.get x := by
  simp [Counter.get, Counter.find?_set_ne c v hne]

theorem Counter.mem_set_self (c : Counter) (w : String) (v : Int) :
    (c.set w v).mem w = true := by
  simp [Counter.mem, Counter.find?_set_self]

theorem Counter.mem_set_ne (c : Counter) {w x : String} (v : Int) (hne : x ≠ w) :
    (c.set w v).mem x = c.mem x := by
  simp [Counter.mem, Counter.find?_set_ne c v hne]

theorem Counter.find?_erase_ne (c : Counter) {w x : String} (hne : x ≠ w) :
    (c.erase w).find? x = c.find? x := by
  have hwx : w ≠ x := Ne.symm hne
  induction c with
  | nil => simp [Counter.erase]
  | cons p t ih =>
    obtain ⟨k, y⟩ := p
    by_cases hk : k = w
    · subst hk
      simp [Counter.erase, Counter.find?, hwx]
    · simp only [Counter.erase, if_neg hk, Counter.find?]
      by_cases hx : k = x
      · simp [hx]
      · simp [hx, ih]

theorem Counter.keys_erase_sublist (c : Counter) (w : String) :
    ((c.erase w).map Prod.fst).Sublist (c.map Prod.fst) := by
  induction c with
  | nil => simp [Counter.erase]
  | cons p t ih =>
    obtain ⟨k, y⟩ := p
    by_cases hk : k = w
    · simp only [Counter.erase, if_pos hk, List.map_cons]
      exact (List.sublist_cons_self _ _)
    · simp only [Counter.erase, if_neg hk, List.map_cons]
      exact ih.cons₂ _

theorem Counter.erase_subset (c : Counter) (w : String) :
    ∀ p ∈ c.erase w, p ∈ c := by
  induction c with
  | nil => simp [Counter.erase]
  | cons p t ih =>
    obtain ⟨k, y⟩ := p
    by_cases hk : k = w
    · simp only [Counter.erase, if_pos hk]
      intro q hq
      exact List.mem_cons_of_mem _ hq
    · simp only [Counter.erase, if_neg hk]
      intro q hq
      rcases List.mem_cons.1 hq with h | h
      · exact h ▸ List.mem_cons_self _ _
      · exact List.mem_cons_of_mem _ (ih q h)

theorem Counter.find?_erase_self {c : Counter} (hnd : (c.map Prod.fst).Nodup) (w : String) :
    (c.erase w).find? w = none := by
  induction c with
  | nil => simp [Counter.erase, Counter.find?]
  | cons p t ih =>
    obtain ⟨k, y⟩ := p
    simp only [List.map_cons, List.nodup_cons] at hnd
    by_cases hk : k = w
    · subst hk
      have he : Counter.erase ((k, y) :: t) k = t := by simp [Counter.erase]
      rw [he]
      cases hf : Counter.find? t k with
      | none => rfl
      | some v =>
        exact absurd (List.mem_map_of_mem Prod.fst (Counter.find?_mem hf)) hnd.1
    · simp only [Counter.erase, if_neg hk, Counter.find?, if_neg hk]
      exact ih hnd.2

theorem Counter.get_eq_zero_of_not_mem {c : Counter} {w : String}
    (h : c.mem w = false) : c.get w = 0 := by
  unfold Counter.mem at h
  unfold Counter.get
  cases hf : c.find? w with
  | none => rfl
  | some v => rw [hf] at h; simp at h

theorem Counter.find?_isSome_of_mem {c : Counter} {p : String × Int}
    (h : p ∈ c) : (c.find? p.1).isSome = true := by
  induction c with
  | nil => simp at h
  | cons q t ih =>
    obtain ⟨k, y⟩ := q
    rcases List.mem_cons.1 h with h | h
    · subst h
      simp [Counter.find?]
    · by_cases hk : k = p.1
      · simp [Counter.find?, hk]
      · simp only [Counter.find?, if_neg hk]
        exact ih h

theorem Counter.keys_set (c : Counter) (w : String) (v : Int) :
    (c.set w v).map Prod.fst =
      if c.mem w then c.map Prod.fst else c.map Prod.fst ++ [w] := by
  induction c with
  | nil => simp [Counter.set, Counter.mem, Counter.find?]
  | cons p t ih =>
    obtain ⟨k, y⟩ := p
    by_cases hk : k = w
    · subst hk
      simp [Counter.set, Counter.mem, Counter.find?]
    · simp only [Counter.set, if_neg hk, List.map_cons]
      rw [ih]
      simp only [Counter.mem, Counter.find?, if_neg hk]
      by_cases hc : (Counter.find? t w).isSome = true <;> simp [hc]

theorem Counter.mem_set_elim {c : Counter} {w : String} {v : Int} {p : String × Int}
    (hp : p ∈ c.set w v) : p ∈ c ∨ p = (w, v) := by
  induction c with
  | nil => simp [Counter.set] at hp; simp [hp]
  | cons q t ih =>
    obtain ⟨k, y⟩ := q
    by_cases hk : k = w
    · subst hk
      simp only [Counter.set, if_pos rfl] at hp
      rcases List.mem_cons.1 hp with h | h
      · exact Or.inr h
      · exact Or.inl (List.mem_cons_of_mem _ h)
    · simp only [Counter.set, if_neg hk] at hp
      rcases List.mem_cons.1 hp with h | h
      · exact Or.inl (h ▸ List.mem_cons_self _ _)
      · rcases ih h with h' | h'
        · exact Or.inl (List.mem_cons_of_mem _ h')
        · exact Or.inr h'

theorem removeOneCount_not_mem {c : Counter} {u : String} (h : c.mem u = false) :
    removeOneCount c u = c := by
  unfold removeOneCount
  simp [h]

theorem removeOneCount_WF {c : Counter} (h : c.WF) (u : String) :
    (removeOneCount c u).WF := by
  by_cases hm : c.mem u
  · have hg : 1 ≤ c.get u := Counter.get_pos_of_wf h hm
    have hkeys : ((c.set u (c.get u - 1)).map Prod.fst).Nodup := by
      rw [Counter.keys_set, if_pos hm]
      exact h.1
    have hvals : ∀ p ∈ c.set u (c.get u - 1), p ∈ c ∨ p = (u, c.get u - 1) :=
      fun p hp => Counter.mem_set_elim hp
    unfold removeOneCount
    simp only [hm, if_true]
    by_cases hz : (c.set u (c.get u - 1)).get u = 0
    · simp only [if_pos hz]
      constructor
      · exact ((c.set u (c.get u - 1)).keys_erase_sublist u).nodup hkeys
      · intro p hp
        have hp' := Counter.erase_subset _ _ _ hp
        rcases hvals p hp' with h' | h'
        · exact h.2 p h'
        · exfalso
          have h1 : ((c.set u (c.get u - 1)).erase u).find? p.1 = none := by
            rw [h', Counter.find?_erase_self hkeys]
          have h2 := Counter.find?_isSome_of_mem hp
          rw [h1] at h2
          simp at h2
    · simp only [if_neg hz]
      refine ⟨hkeys, fun p hp => ?_⟩
      rcases hvals p hp with h' | h'
      · exact h.2 p h'
      · rw [Counter.get_set_self] at hz
        have : p.2 = c.get u - 1 := by rw [h']
        omega
  · rw [removeOneCount_not_mem (by simpa using hm)]
    exact h

theorem removeOneCount_get_ne {c : Counter} {u x : String} (hne : x ≠ u) :
    (removeOneCount c u).get x = c.get x := by
  by_cases hm : c.mem u
  · unfold removeOneCount
    simp only [hm, if_true]
    by_cases hz : (c.set u (c.get u - 1)).get u = 0
    · simp only [if_pos hz]
      rw [Counter.get, Counter.find?_erase_ne _ hne, ← Counter.get,
        Counter.get_set_ne _ _ hne]
    · simp only [if_neg hz]
      exact Counter.get_set_ne _ _ hne
  · rw [removeOneCount_not_mem (by simpa using hm)]

theorem removeOneCount_mem_ne {c : Counter} {u x : String} (hne : x ≠ u) :
    (removeOneCount c u).mem x = c.mem x := by
  by_cases hm : c.mem u
  · unfold removeOneCount
    simp only [hm, if_true]
    by_cases hz : (c.set u (c.get u - 1)).get u = 0
    · simp only [if_pos hz]
      rw [Counter.mem, Counter.find?_erase_ne _ hne, ← Counter.mem,
        Counter.mem_set_ne _ _ hne]
    · simp only [if_neg hz]
      exact Counter.mem_set_ne _ _ hne
  · rw [removeOneCount_not_mem (by simpa using hm)]

theorem removeOneCount_get_self {c : Counter} (hnd : (c.map Prod.fst).Nodup)
    (u : String) :
    (removeOneCount c u).get u = if c.mem u then c.get u - 1 else c.get u := by
  by_cases hm : c.mem u
  · have hkeys : ((c.set u (c.get u - 1)).map Prod.fst).Nodup := by
      rw [Counter.keys_set, if_pos hm]
      exact hnd
    unfold removeOneCount
    simp only [hm, if_true]
    by_cases hz : (c.set u (c.get u - 1)).get u = 0
    · simp only [if_pos hz]
      rw [Counter.get, Counter.find?_erase_self hkeys]
      rw [Counter.get_set_self] at hz
      simp [hz.symm]
    · rw [Counter.get_set_self] at hz
      simp only [Counter.get_set_self, if_neg hz]
  · rw [removeOneCount_not_mem (by simpa using hm)]
    simp [hm]

theorem removeOneCount_mem_self {c : Counter} (hnd : (c.map Prod.fst).Nodup)
    (u : String) :
    ((removeOneCount c u).mem u = true ↔ c.mem u = true ∧ c.get u ≠ 1) := by
  by_cases hm : c.mem u
  · have hkeys : ((c.set u (c.get u - 1)).map Prod.fst).Nodup := by
      rw [Counter.keys_set, if_pos hm]
      exact hnd
    unfold removeOneCount
    simp only [hm, if_true]
    by_cases hz : (c.set u (c.get u - 1)).get u = 0
    · simp only [if_pos hz]
      rw [Counter.get_set_self] at hz
      constructor
      · intro h
        rw [Counter.mem, Counter.find?_erase_self hkeys] at h
        simp at h
      · intro h
        omega
    · simp only [if_neg hz]
      rw [Counter.get_set_self] at hz
      simp [Counter.mem_set_self, hm]
      omega
  · rw [removeOneCount_not_mem (by simpa using hm)]
    simp [hm]

theorem foldl_removeOneCount_char (l : List String) (c0 : Counter) (h : c0.WF)
    (w : String) :
    (l.foldl removeOneCount c0).WF ∧
    ((l.foldl removeOneCount c0).get w =
      if c0.mem w then max (c0.get w - l.count w) 0 else 0) ∧
    ((l.foldl removeOneCount c0).mem w = true ↔
      c0.mem w = true ∧ (l.count w : Int) < c0.get w) := by
  induction l generalizing c0 with
  | nil =>
    refine ⟨h, ?_, ?_⟩
    · by_cases hm : c0.mem w
      · have hg := Counter.get_pos_of_wf h hm
        simp only [List.foldl_nil, List.count_nil, hm, if_true]
        omega
      · have h0 := Counter.get_eq_zero_of_not_mem (by simpa using hm)
        simp [hm, h0]
    · by_cases hm : c0.mem w
      · have hg := Counter.get_pos_of_wf h hm
        simp only [List.foldl_nil, List.count_nil, hm, true_and, Nat.cast_zero]
        constructor
        · intro _
          omega
        · intro _
          trivial
      · simp [hm]
  | cons u t ih =>
    simp only [List.foldl_cons]
    have h1 := removeOneCount_WF h u
    have IH := ih (removeOneCount c0 u) h1
    by_cases hwu : w = u
    · subst hwu
      have hget := removeOneCount_get_self h.1 w
      have hmem := removeOneCount_mem_self h.1 w
      have hcount : (w :: t).count w = t.count w + 1 := by
        simp [List.count_cons]
      by_cases hm : c0.mem w
      · have hg := Counter.get_pos_of_wf h hm
        rw [if_pos hm] at hget
        by_cases h1g : c0.get w = 1
        · have hm1 : (removeOneCount c0 w).mem w = false := by
            rcases Bool.eq_false_or_eq_true ((removeOneCount c0 w).mem w) with ht | hf
            · exact absurd (hmem.1 ht).2 (by simp [h1g])
            · exact hf
          refine ⟨IH.1, ?_, ?_⟩
          · rw [IH.2.1, if_neg (by simp [hm1]), hcount, if_pos hm]
            push_cast
            omega
          · rw [IH.2.2, hcount]
            simp only [hm1, hm, true_and]
            push_cast
            constructor
            · intro hc
              exact absurd hc.1 (by simp)
            · intro hc
              omega
        · have hm1 : (removeOneCount c0 w).mem w = true := hmem.2 ⟨hm, h1g⟩
          refine ⟨IH.1, ?_, ?_⟩
          · rw [IH.2.1, if_pos hm1, hget, hcount, if_pos hm]
            push_cast
            omega
          · rw [IH.2.2, hget, hcount]
            simp only [hm1, hm, true_and]
            push_cast
            constructor
            · intro hc
              omega
            · intro hc
              omega
      · have hnone : removeOneCount c0 w = c0 := removeOneCount_not_mem (by simpa using hm)
        rw [hnone] at IH
        rw [hnone]
        refine ⟨IH.1, ?_, ?_⟩
        · rw [IH.2.1]
          simp [hm]
        · rw [IH.2.2]
          simp [hm]
    · have hget := @removeOneCount_get_ne c0 u w hwu
      have hmem := @removeOneCount_mem_ne c0 u w hwu
      have hcount : (u :: t).count w = t.count w := by
        simp [List.count_cons, hwu]
      refine ⟨IH.1, ?_, ?_⟩
      · rw [IH.2.1, hget, hmem, hcount]
      · rw [IH.2.2, hget, hmem, hcount]

/-- C8: for every raw word counter and correction lists, `split_words`
decrements a word's count by one for each listed occurrence in the
incongruent list, then for each listed occurrence in the duplicate-vector
list; a word whose count reaches 0 is deleted and never goes negative
(further listed occurrences of a deleted word are no-ops), and a listed
word absent from the raw counter is a no-op. -/
theorem c8_remove_corrections (words : Counter) (hwf : words.WF)
    (incongruent_words dublicate_vectors : List String) (w : String) :
    (removeCorrections words incongruent_words dublicate_vectors).WF ∧
    (words.mem w = false →
      (removeCorrections words incongruent_words dublicate_vectors).get w = 0 ∧
      (removeCorrections words incongruent_words dublicate_vectors).mem w = false) ∧
    (words.mem w = true →
      (removeCorrections words incongruent_words dublicate_vectors).get w =
        max (words.get w -
          ((incongruent_words.count w : Int) + (dublicate_vectors.count w : Int))) 0 ∧
      ((removeCorrections words incongruent_words dublicate_vectors).mem w = true ↔
        ((incongruent_words.count w : Int) + (dublicate_vectors.count w : Int)
          < words.get w))) := by
  have hrw : removeCorrections words incongruent_words dublicate_vectors =
      (incongruent_words ++ dublicate_vectors).foldl removeOneCount words := by
    rw [removeCorrections, List.foldl_append]
  have H := foldl_removeOneCount_char (incongruent_words ++ dublicate_vectors)
    words hwf w
  rw [← hrw] at H
  rw [List.count_append] at H
  refine ⟨H.1, ?_, ?_⟩
  · intro hm
    refine ⟨by rw [H.2.1]; simp [hm], ?_⟩
    rcases Bool.eq_false_or_eq_true
        ((removeCorrections words incongruent_words dublicate_vectors).mem w) with ht | hf
    · exact absurd ((H.2.2.1 ht).1) (by simp [hm])
    · exact hf
  · intro hm
    refine ⟨?_, ?_⟩
    · rw [H.2.1, if_pos hm]
      push_cast
      ring_nf
    · rw [H.2.2]
      simp only [hm, true_and]
      push_cast
      constructor
      · intro hc
        omega
      · intro hc
        omega

/-- Witness for C8: raw counter `{a ↦ 2}`, incongruent list `[a]`,
duplicate list `[a, a]`, probe words `a` (flooring at deletion) and `b`
(absent no-op). -/
theorem c8_remove_corrections_witness :
    (removeCorrections [("a", 2)] ["a"] ["a", "a"]).get "a" = 0 ∧
    (removeCorrections [("a", 2)] ["a"] ["a", "a"]).mem "a" = false ∧
    (removeCorrections [("a", 2)] ["a"] ["a", "a"]).get "b" = 0 ∧
    (removeCorrections [("a", 2)] ["a"] ["a", "a"]).mem "b" = false := by
  have hwf : Counter.WF [("a", 2)] := by
    constructor
    · simp
    · intro p hp
      simp at hp
      simp [hp]
  have Ha := c8_remove_corrections [("a", 2)] hwf ["a"] ["a", "a"] "a"
  have Hb := c8_remove_corrections [("a", 2)] hwf ["a"] ["a", "a"] "b"
  have hma : Counter.mem [("a", 2)] "a" = true := by decide
  have hmb : Counter.mem [("a", 2)] "b" = false := by decide
  have h1 := Ha.2.2 hma
  have h2 := Hb.2.1 hmb
  refine ⟨?_, ?_, h2.1, h2.2⟩
  · rw [h1.1]
    decide
  · rcases Bool.eq_false_or_eq_true
        ((removeCorrections [("a", 2)] ["a"] ["a", "a"]).mem "a") with ht | hf
    · have := h1.2.1 ht
      rw [show Counter.get [("a", 2)] "a" = 2 from by decide] at this
      norm_num at this
    · exact hf

/-- One row of a source shard dataframe, restricted to the fields
`split_data` inspects (`lexical_word`, `mfa_word`). -/
structure Row where
  lexical_word : String
  mfa_word : String
deriving DecidableEq

/-- A row as stored into an output subset, with its provenance
`origin = (unique_identifier, i)` set in `split_data.py` line 207. -/
structure ORow where
  lexical_word : String
  origin : String × Nat
deriving DecidableEq

/-- The three quota counters threaded through `split_data`. -/
structure Quotas where
  test_words : Counter
  validation_words : Counter
  training_words : Counter
deriving DecidableEq

/-- What `split_data` does with one row of a source shard. -/
inductive RowAction where
  | dropMismatch
  | dropDuplicate
  | toTest (r : ORow)
  | toValidation (r : ORow)
  | toTraining (r : ORow)
deriving DecidableEq

/-- Processing of a single row in the main loop of `split_data`
(`split_data.py` lines 182–216).  `normalize` stands for
`lambda w: replace_special_chars(w).lower()` (the helper lives in
`split_utils.py`, outside the partitioner); `dublicate_vectors` is the
duplicate-vector table after `dropna`, as (dataframe index, lexical word)
pairs, so the membership test `len(...) > 0 and i in ....index` holds
exactly when some table entry has this row's index and cleaned word. -/
def processRow (normalize : String → String) (dublicate_vectors : List (Nat × String))
    (unique_identifier : String) (q : Quotas) (i : Nat) (row : Row) :
    Quotas × RowAction :=
  let word := row.lexical_word
  let cleaned_word := normalize word
  let cleaned_mfa_word := normalize row.mfa_word
  if cleaned_word ≠ cleaned_mfa_word then (q, .dropMismatch)
  else if dublicate_vectors.any (fun e => e.2 == cleaned_word && e.1 == i) then
    (q, .dropDuplicate)
  else
    let r : ORow := ⟨word, (unique_identifier, i)⟩
    if 0 < q.test_words.get word then
      (⟨q.test_words.set word (q.test_words.get word - 1),
        q.validation_words, q.training_words⟩, .toTest r)
    else if 0 < q.validation_words.get word then
      (⟨q.test_words,
        q.validation_words.set word (q.validation_words.get word - 1),
        q.training_words⟩, .toValidation r)
    else
      (⟨q.test_words, q.validation_words,
        q.training_words.set word (q.training_words.get word - 1)⟩, .toTraining r)

/-- The `for i, row in data.iterrows()` loop of `split_data`
(lines 182–216): returns the final quotas, the three per-subset routed row
lists in arrival order, and the number of discarded rows. -/
def processRows (normalize : String → String) (dv : List (Nat × String))
    (ident : String) : Quotas → Nat → List Row →
    Quotas × (List ORow × List ORow × List ORow × Nat)
  | q, _, [] => (q, ([], [], [], 0))
  | q, i, row :: rest =>
    let step := processRow normalize dv ident q i row
    let next := processRows normalize dv ident step.1 (i + 1) rest
    match step.2 with
    | .dropMismatch =>
      (next.1, (next.2.1, next.2.2.1, next.2.2.2.1, next.2.2.2.2 + 1))
    | .dropDuplicate =>
      (next.1, (next.2.1, next.2.2.1, next.2.2.2.1, next.2.2.2.2 + 1))
    | .toTest r =>
      (next.1, (r :: next.2.1, next.2.2.1, next.2.2.2.1, next.2.2.2.2))
    | .toValidation r =>
      (next.1, (next.2.1, r :: next.2.2.1, next.2.2.2.1, next.2.2.2.2))
    | .toTraining r =>
      (next.1, (next.2.1, next.2.2.1, r :: next.2.2.2.1, next.2.2.2.2))

/-- The `while len(df) >= data_size` flush loops of `split_data`
(lines 250–303): repeatedly slice the first `data_size` buffered rows off
into a new output shard carrying the next per-subset index.  The fuel
argument (instantiated with the buffer length in `flushBuf`) only bounds
the iteration count: each iteration removes `data_size ≥ 1` rows, so
`buf.length` iterations always suffice. -/
def flushLoop (data_size : Nat) : Nat → List ORow → Nat →
    List (Nat × List ORow) × List ORow × Nat
  | 0, buf, idx => ([], buf, idx)
  | fuel + 1, buf, idx =>
    if 0 < data_size ∧ data_size ≤ buf.length then
      let next := flushLoop data_size fuel (buf.drop data_size) (idx + 1)
      ((idx, buf.take data_size) :: next.1, next.2)
    else ([], buf, idx)

/-- Entry point of the flush loop for one subset buffer. -/
def flushBuf (data_size : Nat) (buf : List ORow) (idx : Nat) :
    List (Nat × List ORow) × List ORow × Nat :=
  flushLoop data_size buf.length buf idx

/-- The written shards, remaining buffer and next shard index of one
subset (`test`, `validation` or `training`). -/
structure SubState where
  out : List (Nat × List ORow)
  buf : List ORow
  idx : Nat
deriving DecidableEq

/-- Append freshly routed rows to a subset buffer and run its flush loop
(lines 236–238 and 250–303). -/
def subStep (data_size : Nat) (s : SubState) (newRows : List ORow) : SubState :=
  let fl := flushBuf data_size (s.buf ++ newRows) s.idx
  ⟨s.out ++ fl.1, fl.2.1, fl.2.2⟩

/-- The whole mutable state of a `split_data` run. -/
structure SplitState where
  quotas : Quotas
  test : SubState
  validation : SubState
  training : SubState
  checkpoints : List (Nat × Quotas)
  dropped : Nat
  iVar : Nat
deriving DecidableEq

/-- Processing of one source shard in `split_data`'s main loop
(lines 130–319), resumption skipping and the disk-space guard aside:
route the rows, append them to the subset buffers, flush full output
shards, and checkpoint the quota counters.  The file counter `i` of line
122 is shadowed by the row loop `for i, row in data.iterrows()` (line
182), so after a non-empty shard the checkpoint test `i % 10 == 0` (line
306) sees the shard's last row index, not a file count; the trailing
`i += 1` (line 319) is modelled by the final `+ 1`. -/
def processFile (normalize : String → String) (dv : List (Nat × String))
    (data_size : Nat) (st : SplitState) (shard : String × List Row) : SplitState :=
  let pr := processRows normalize dv shard.1 st.quotas 0 shard.2
  let q := pr.1
  let test := subStep data_size st.test pr.2.1
  let validation := subStep data_size st.validation pr.2.2.1
  let training := subStep data_size st.training pr.2.2.2.1
  let iVar := if shard.2.length = 0 then st.iVar else shard.2.length - 1
  let checkpoints :=
    if iVar % 10 = 0 then st.checkpoints ++ [(iVar, q)] else st.checkpoints
  ⟨q, test, validation, training, checkpoints, st.dropped + pr.2.2.2.2, iVar + 1⟩

/-- `split_and_save_dataframe` (lines 327–337): write a dataframe in
chunks of `data_size` rows (`num_splits` is a ceiling division),
continuing the given per-subset shard index. -/
def split_and_save_dataframe (df : List ORow) (data_size : Nat) (index : Nat) :
    List (Nat × List ORow) :=
  let num_splits := (df.length + data_size - 1) / data_size
  (List.range num_splits).map
    (fun j => (index + j, (df.drop (j * data_size)).take data_size))

/-- A full `split_data` run (lines 95–346) over an ordered list of source
shards, each given as (unique identifier, rows): skip the first
`skip_index` shards, stream the rest through `processFile`, then flush
each subset's remaining buffer through `split_and_save_dataframe`. -/
def split_data (normalize : String → String) (dv : List (Nat × String))
    (shards : List (String × List Row)) (skip_index : Nat) (q0 : Quotas)
    (data_size : Nat) : SplitState :=
  let st := (shards.drop skip_index).foldl (processFile normalize dv data_size)
    ⟨q0, ⟨[], [], 0⟩, ⟨[], [], 0⟩, ⟨[], [], 0⟩, [], 0, 0⟩
  ⟨st.quotas,
   ⟨st.test.out ++ split_and_save_dataframe st.test.buf data_size st.test.idx,
    [], st.test.idx⟩,
   ⟨st.validation.out ++
      split_and_save_dataframe st.validation.buf data_size st.validation.idx,
    [], st.validation.idx⟩,
   ⟨st.training.out ++
      split_and_save_dataframe st.training.buf data_size st.training.idx,
    [], st.training.idx⟩,
   st.checkpoints, st.dropped, st.iVar⟩

/-- Counterexample to C2 as stated: with all three quota counters empty
(so every quota for word `a` is 0), the surviving row is routed to
training, the training counter goes negative (to `-1`), and the run
completes normally, writing the row to a training output shard — no fatal
invariant violation is raised and nothing is clamped. -/
theorem c2_counterexample :
    (split_data id [] [("s0", [⟨"a", "a"⟩])] 0 ⟨[], [], []⟩ 5).quotas.training_words.get "a"
      = -1 ∧
    (split_data id [] [("s0", [⟨"a", "a"⟩])] 0 ⟨[], [], []⟩ 5).training.out
      = [(0, [⟨"a", ("s0", 0)⟩])] := by
  constructor <;> rfl

/-- C2 (amended): every row that survives the word-mismatch and
duplicate-vector filters is routed to test when the word's test quota is
positive (that quota being decremented), else to validation when that
quota is positive (decrementing it), else to training while decrementing
the training quota; a training quota that is already non-positive simply
goes negative and the run continues — `split_data` raises no fatal
invariant violation (and does not clamp). -/
theorem c2_processRow_routing (normalize : String → String)
    (dv : List (Nat × String)) (ident : String) (q : Quotas) (i : Nat) (row : Row)
    (hmatch : normalize row.lexical_word = normalize row.mfa_word)
    (hdup : dv.any
      (fun e => e.2 == normalize row.lexical_word && e.1 == i) = false) :
    (0 < q.test_words.get row.lexical_word →
      processRow normalize dv ident q i row =
        (⟨q.test_words.set row.lexical_word
            (q.test_words.get row.lexical_word - 1),
          q.validation_words, q.training_words⟩,
         .toTest ⟨row.lexical_word, (ident, i)⟩)) ∧
    (q.test_words.get row.lexical_word ≤ 0 →
      0 < q.validation_words.get row.lexical_word →
      processRow normalize dv ident q i row =
        (⟨q.test_words,
          q.validation_words.set row.lexical_word
            (q.validation_words.get row.lexical_word - 1),
          q.training_words⟩,
         .toValidation ⟨row.lexical_word, (ident, i)⟩)) ∧
    (q.test_words.get row.lexical_word ≤ 0 →
      q.validation_words.get row.lexical_word ≤ 0 →
      processRow normalize dv ident q i row =
        (⟨q.test_words, q.validation_words,
          q.training_words.set row.lexical_word
            (q.training_words.get row.lexical_word - 1)⟩,
         .toTraining ⟨row.lexical_word, (ident, i)⟩) ∧
      (processRow normalize dv ident q i row).1.training_words.get row.lexical_word =
        q.training_words.get row.lexical_word - 1) := by
  have hm : ¬ (normalize row.lexical_word ≠ normalize row.mfa_word) := by
    simpa using hmatch
  refine ⟨?_, ?_, ?_⟩
  · intro ht
    unfold processRow
    rw [if_neg hm, if_neg (by simp [hdup]), if_pos ht]
  · intro ht hv
    unfold processRow
    rw [if_neg hm, if_neg (by simp [hdup]), if_neg (by omega), if_pos hv]
  · intro ht hv
    have hstep : processRow normalize dv ident q i row =
        (⟨q.test_words, q.validation_words,
          q.training_words.set row.lexical_word
            (q.training_words.get row.lexical_word - 1)⟩,
         .toTraining ⟨row.lexical_word, (ident, i)⟩) := by
      unfold processRow
      rw [if_neg hm, if_neg (by simp [hdup]), if_neg (by omega), if_neg (by omega)]
    refine ⟨hstep, ?_⟩
    rw [hstep]
    exact Counter.get_set_self _ _ _

/-- Witness for C2 (amended), at a concrete surviving row whose word has
test quota 1. -/
theorem c2_processRow_routing_witness :
    processRow id [] "s0" ⟨[("a", 1)], [], []⟩ 0 ⟨"a", "a"⟩ =
      (⟨[("a", 0)], [], []⟩, .toTest ⟨"a", ("s0", 0)⟩) := by
  have H := c2_processRow_routing id [] "s0" ⟨[("a", 1)], [], []⟩ 0 ⟨"a", "a"⟩
    rfl (by decide)
  have h1 := H.1 (by decide)
  rw [h1]
  decide

/-- C3 is refuted by the code: the checkpoint cadence is keyed to the
shadowed row-loop variable `i` — after each non-empty shard, `i` holds the
shard's last row index, so `i % 10 == 0` (line 306) tests that row index,
not a count of processed shard files.  Twelve five-row shards produce no
checkpoint at all, while a single eleven-row shard (last row index 10)
checkpoints immediately after the first file. -/
theorem c3_checkpoint_counter_shadowed :
    (split_data id [] (List.replicate 12 ("s", List.replicate 5 ⟨"a", "b"⟩))
        0 ⟨[], [], []⟩ 5).checkpoints = [] ∧
    (split_data id [] [("s", List.replicate 11 ⟨"a", "b"⟩)]
        0 ⟨[], [], []⟩ 5).checkpoints = [(10, ⟨[], [], []⟩)] := by
  constructor <;> rfl

theorem flushLoop_char {data_size : Nat} (hds : 0 < data_size) :
    ∀ (fuel : Nat) (buf : List ORow) (idx : Nat), buf.length ≤ fuel →
    (((flushLoop data_size fuel buf idx).1.map Prod.snd).flatten ++
        (flushLoop data_size fuel buf idx).2.1 = buf) ∧
    (∀ p ∈ (flushLoop data_size fuel buf idx).1, p.2.length = data_size) ∧
    ((flushLoop data_size fuel buf idx).2.1.length < data_size) ∧
    ((flushLoop data_size fuel buf idx).1.map Prod.fst =
      List.range' idx (flushLoop data_size fuel buf idx).1.length) ∧
    ((flushLoop data_size fuel buf idx).2.2 =
      idx + (flushLoop data_size fuel buf idx).1.length) := by
  intro fuel
  induction fuel with
  | zero =>
    intro buf idx hlen
    have hb : buf = [] := List.length_eq_zero.1 (Nat.le_zero.1 hlen)
    subst hb
    simp [flushLoop, hds]
  | succ fuel ih =>
    intro buf idx hlen
    by_cases hc : 0 < data_size ∧ data_size ≤ buf.length
    · have hrec := ih (buf.drop data_size) (idx + 1)
        (by simp; omega)
      simp only [flushLoop, if_pos hc]
      refine ⟨?_, ?_, hrec.2.2.1, ?_, ?_⟩
      · simp only [List.map_cons, List.flatten_cons, List.append_assoc]
        rw [hrec.1]
        exact List.take_append_drop _ _
      · intro p hp
        rcases List.mem_cons.1 hp with h | h
        · rw [h]
          simp [List.length_take]
          omega
        · exact hrec.2.1 p h
      · simp only [List.map_cons, List.length_cons]
        rw [hrec.2.2.2.1, List.range'_succ]
      · simp only [List.length_cons]
        rw [hrec.2.2.2.2]
        omega
    · simp only [flushLoop, if_neg hc]
      refine ⟨by simp, by simp, by omega, by simp, by simp⟩

theorem flushBuf_char {data_size : Nat} (hds : 0 < data_size)
    (buf : List ORow) (idx : Nat) :
    (((flushBuf data_size buf idx).1.map Prod.snd).flatten ++
        (flushBuf data_size buf idx).2.1 = buf) ∧
    (∀ p ∈ (flushBuf data_size buf idx).1, p.2.length = data_size) ∧
    ((flushBuf data_size buf idx).2.1.length < data_size) ∧
    ((flushBuf data_size buf idx).1.map Prod.fst =
      List.range' idx (flushBuf data_size buf idx).1.length) ∧
    ((flushBuf data_size buf idx).2.2 =
      idx + (flushBuf data_size buf idx).1.length) :=
  flushLoop_char hds buf.length buf idx (Nat.le_refl _)

/-- Invariant tying one subset's written shards, buffer and next index to
the full in-order list of rows routed to that subset so far. -/
def SubInv (data_size : Nat) (s : SubState) (routed : List ORow) : Prop :=
  ((s.out.map Prod.snd).flatten ++ s.buf = routed) ∧
  (∀ p ∈ s.out, p.2.length = data_size) ∧
  (s.buf.length < data_size) ∧
  (s.out.map Prod.fst = List.range s.out.length) ∧
  (s.idx = s.out.length)

theorem subStep_inv {data_size : Nat} (hds : 0 < data_size) {s : SubState}
    {routed : List ORow} (h : SubInv data_size s routed) (rows : List ORow) :
    SubInv data_size (subStep data_size s rows) (routed ++ rows) := by
  have hf := flushBuf_char hds (s.buf ++ rows) s.idx
  unfold subStep
  refine ⟨?_, ?_, hf.2.2.1, ?_, ?_⟩
  · simp only [List.map_append, List.flatten_append, List.append_assoc]
    rw [hf.1, ← List.append_assoc, h.1]
  · intro p hp
    rcases List.mem_append.1 hp with h' | h'
    · exact h.2.1 p h'
    · exact hf.2.1 p h'
  · simp only [List.map_append, List.length_append]
    rw [h.2.2.2.1, hf.2.2.2.1, h.2.2.2.2, List.range'_eq_map_range]
    rw [List.range_add]
  · simp only [List.length_append]
    rw [hf.2.2.2.2, h.2.2.2.2]

/-- The quotas, per-subset routed rows (in arrival order) and total
discarded-row count of a list of source shards, accumulated in processing
order — the row loop's view of a run, without buffering. -/
def runRows (normalize : String → String) (dv : List (Nat × String)) :
    Quotas → List (String × List Row) →
    Quotas × (List ORow × List ORow × List ORow × Nat)
  | q, [] => (q, ([], [], [], 0))
  | q, shard :: rest =>
    let pr := processRows normalize dv shard.1 q 0 shard.2
    let next := runRows normalize dv pr.1 rest
    (next.1, (pr.2.1 ++ next.2.1, pr.2.2.1 ++ next.2.2.1,
     pr.2.2.2.1 ++ next.2.2.2.1, pr.2.2.2.2 + next.2.2.2.2))

theorem foldl_processFile_inv (normalize : String → String)
    (dv : List (Nat × String)) {data_size : Nat} (hds : 0 < data_size) :
    ∀ (shards : List (String × List Row)) (st : SplitState)
      (rt rv rtr : List ORow),
    SubInv data_size st.test rt → SubInv data_size st.validation rv →
    SubInv data_size st.training rtr →
    ((shards.foldl (processFile normalize dv data_size) st).quotas =
      (runRows normalize dv st.quotas shards).1) ∧
    SubInv data_size (shards.foldl (processFile normalize dv data_size) st).test
      (rt ++ (runRows normalize dv st.quotas shards).2.1) ∧
    SubInv data_size (shards.foldl (processFile normalize dv data_size) st).validation
      (rv ++ (runRows normalize dv st.quotas shards).2.2.1) ∧
    SubInv data_size (shards.foldl (processFile normalize dv data_size) st).training
      (rtr ++ (runRows normalize dv st.quotas shards).2.2.2.1) ∧
    ((shards.foldl (processFile normalize dv data_size) st).dropped =
      st.dropped + (runRows normalize dv st.quotas shards).2.2.2.2) := by
  intro shards
  induction shards with
  | nil =>
    intro st rt rv rtr ht hv htr
    refine ⟨rfl, ?_, ?_, ?_, by simp [runRows]⟩
    · simpa [runRows] using ht
    · simpa [runRows] using hv
    · simpa [runRows] using htr
  | cons shard rest ih =>
    intro st rt rv rtr ht hv htr
    have hq : (processFile normalize dv data_size st shard).quotas =
        (processRows normalize dv shard.1 st.quotas 0 shard.2).1 := rfl
    have hT : (processFile normalize dv data_size st shard).test =
        subStep data_size st.test
          (processRows normalize dv shard.1 st.quotas 0 shard.2).2.1 := rfl
    have hV : (processFile normalize dv data_size st shard).validation =
        subStep data_size st.validation
          (processRows normalize dv shard.1 st.quotas 0 shard.2).2.2.1 := rfl
    have hTr : (processFile normalize dv data_size st shard).training =
        subStep data_size st.training
          (processRows normalize dv shard.1 st.quotas 0 shard.2).2.2.2.1 := rfl
    have hD : (processFile normalize dv data_size st shard).dropped =
        st.dropped +
          (processRows normalize dv shard.1 st.quotas 0 shard.2).2.2.2.2 := rfl
    have H := ih (processFile normalize dv data_size st shard)
      (rt ++ (processRows normalize dv shard.1 st.quotas 0 shard.2).2.1)
      (rv ++ (processRows normalize dv shard.1 st.quotas 0 shard.2).2.2.1)
      (rtr ++ (processRows normalize dv shard.1 st.quotas 0 shard.2).2.2.2.1)
      (by rw [hT]; exact subStep_inv hds ht _)
      (by rw [hV]; exact subStep_inv hds hv _)
      (by rw [hTr]; exact subStep_inv hds htr _)
    rw [hq, hD] at H
    simp only [List.foldl_cons, runRows]
    refine ⟨H.1, ?_, ?_, ?_, ?_⟩
    · simpa [List.append_assoc] using H.2.1
    · simpa [List.append_assoc] using H.2.2.1
    · simpa [List.append_assoc] using H.2.2.2.1
    · rw [H.2.2.2.2]
      omega

theorem split_and_save_small {df : List ORow} {data_size : Nat}
    (hds : 0 < data_size) (hlen : df.length < data_size) (index : Nat) :
    split_and_save_dataframe df data_size index =
      if df = [] then [] else [(index, df)] := by
  unfold split_and_save_dataframe
  rcases df with _ | ⟨a, l⟩
  · have h0 : (data_size - 1) / data_size = 0 := Nat.div_eq_of_lt (by omega)
    simp [h0]
  · have h1 : ((a :: l).length + data_size - 1) / data_size = 1 := by
      apply Nat.div_eq_of_lt_le
      · simp only [List.length_cons, Nat.one_mul]
        omega
      · simp at hlen ⊢
        omega
    rw [h1]
    have ht : List.take data_size (a :: l) = a :: l :=
      List.take_of_length_le (Nat.le_of_lt hlen)
    show List.map (fun j => (index + j, List.take data_size
        (List.drop (j * data_size) (a :: l)))) (List.range 1) =
      if a :: l = [] then [] else [(index, a :: l)]
    rw [show List.range 1 = [0] from rfl]
    simp [ht]

/-- Structural discipline of one subset's written output shards: every
shard holds between 1 and `data_size` rows, every shard except possibly
the last holds exactly `data_size` rows, and the shard indices are
consecutive from 0. -/
def OutShape (data_size : Nat) (out : List (Nat × List ORow)) : Prop :=
  (∀ p ∈ out, 0 < p.2.length ∧ p.2.length ≤ data_size) ∧
  (∀ p ∈ out.dropLast, p.2.length = data_size) ∧
  (out.map Prod.fst = List.range out.length)

theorem finalize_sub {data_size : Nat} (hds : 0 < data_size) {s : SubState}
    {routed : List ORow} (h : SubInv data_size s routed) :
    (((s.out ++ split_and_save_dataframe s.buf data_size s.idx).map
        Prod.snd).flatten = routed) ∧
    OutShape data_size (s.out ++ split_and_save_dataframe s.buf data_size s.idx) := by
  obtain ⟨hflat, hsize, hblen, hidxs, hidx⟩ := h
  rw [split_and_save_small hds hblen]
  by_cases hb : s.buf = []
  · rw [if_pos hb]
    rw [hb] at hflat
    simp only [List.append_nil]
    refine ⟨by simpa using hflat, ?_, ?_, hidxs⟩
    · intro p hp
      rw [hsize p hp]
      omega
    · intro p hp
      exact hsize p (List.dropLast_sublist _ |>.mem hp)
  · simp only [if_neg hb]
    refine ⟨?_, ?_, ?_, ?_⟩
    · simpa using hflat
    · intro p hp
      rcases List.mem_append.1 hp with h' | h'
      · rw [hsize p h']
        omega
      · rcases List.mem_singleton.1 h' with h''
        rw [h'']
        have : s.buf ≠ [] := hb
        constructor
        · simpa using List.length_pos.2 this
        · exact Nat.le_of_lt hblen
    · intro p hp
      rw [List.dropLast_concat] at hp
      exact hsize p hp
    · simp only [List.map_append, List.length_append, List.map_cons, List.map_nil,
        List.length_cons, List.length_nil]
      rw [hidxs, hidx, List.range_succ]

theorem split_data_outputs (normalize : String → String) (dv : List (Nat × String))
    (shards : List (String × List Row)) (skip_index : Nat) (q0 : Quotas)
    {data_size : Nat} (hds : 0 < data_size) :
    (((split_data normalize dv shards skip_index q0 data_size).test.out.map
        Prod.snd).flatten =
      (runRows normalize dv q0 (shards.drop skip_index)).2.1) ∧
    (((split_data normalize dv shards skip_index q0 data_size).validation.out.map
        Prod.snd).flatten =
      (runRows normalize dv q0 (shards.drop skip_index)).2.2.1) ∧
    (((split_data normalize dv shards skip_index q0 data_size).training.out.map
        Prod.snd).flatten =
      (runRows normalize dv q0 (shards.drop skip_index)).2.2.2.1) ∧
    ((split_data normalize dv shards skip_index q0 data_size).dropped =
      (runRows normalize dv q0 (shards.drop skip_index)).2.2.2.2) ∧
    ((split_data normalize dv shards skip_index q0 data_size).quotas =
      (runRows normalize dv q0 (shards.drop skip_index)).1) ∧
    OutShape data_size
      (split_data normalize dv shards skip_index q0 data_size).test.out ∧
    OutShape data_size
      (split_data normalize dv shards skip_index q0 data_size).validation.out ∧
    OutShape data_size
      (split_data normalize dv shards skip_index q0 data_size).training.out := by
  have base : SubInv data_size (⟨[], [], 0⟩ : SubState) [] := by
    refine ⟨by simp, by simp, by simpa using hds, by simp, by simp⟩
  have H := foldl_processFile_inv normalize dv hds (shards.drop skip_index)
    ⟨q0, ⟨[], [], 0⟩, ⟨[], [], 0⟩, ⟨[], [], 0⟩, [], 0, 0⟩ [] [] [] base base base
  simp only [List.nil_append] at H
  have hT := finalize_sub hds H.2.1
  have hV := finalize_sub hds H.2.2.1
  have hTr := finalize_sub hds H.2.2.2.1
  exact ⟨hT.1, hV.1, hTr.1, by simpa using H.2.2.2.2, H.1, hT.2, hV.2, hTr.2⟩

theorem processRows_length (normalize : String → String) (dv : List (Nat × String))
    (ident : String) :
    ∀ (rows : List Row) (q : Quotas) (i : Nat),
    (processRows normalize dv ident q i rows).2.1.length +
      (processRows normalize dv ident q i rows).2.2.1.length +
      (processRows normalize dv ident q i rows).2.2.2.1.length +
      (processRows normalize dv ident q i rows).2.2.2.2 = rows.length := by
  intro rows
  induction rows with
  | nil =>
    intro q i
    simp [processRows]
  | cons row rest ih =>
    intro q i
    have IH := ih (processRow normalize dv ident q i row).1 (i + 1)
    simp only [processRows]
    rcases hact : (processRow normalize dv ident q i row).2 with _ | _ | r | r | r <;>
      · simp only [hact, List.length_cons]
        omega

theorem runRows_length (normalize : String → String) (dv : List (Nat × String)) :
    ∀ (shards : List (String × List Row)) (q : Quotas),
    (runRows normalize dv q shards).2.1.length +
      (runRows normalize dv q shards).2.2.1.length +
      (runRows normalize dv q shards).2.2.2.1.length +
      (runRows normalize dv q shards).2.2.2.2 =
      (shards.map (fun s => s.2.length)).sum := by
  intro shards
  induction shards with
  | nil =>
    intro q
    simp [runRows]
  | cons shard rest ih =>
    intro q
    have h1 := processRows_length normalize dv shard.1 shard.2 q 0
    have IH := ih (processRows normalize dv shard.1 q 0 shard.2).1
    simp only [runRows, List.map_cons, List.sum_cons, List.length_append]
    omega

/-- C6: in a `split_data` run, every streamed input row is handled in
exactly one way — discarded for a word/alignment mismatch, discarded as a
duplicate-vector hit, or assigned to exactly one of the three subsets —
so the rows across all test, validation and training output shards plus
the discarded rows equal the input rows of the processed shards. -/
theorem c6_row_conservation (normalize : String → String)
    (dv : List (Nat × String)) (shards : List (String × List Row))
    (skip_index : Nat) (q0 : Quotas) (data_size : Nat) (hds : 0 < data_size) :
    (((split_data normalize dv shards skip_index q0 data_size).test.out.map
        Prod.snd).flatten).length +
    (((split_data normalize dv shards skip_index q0 data_size).validation.out.map
        Prod.snd).flatten).length +
    (((split_data normalize dv shards skip_index q0 data_size).training.out.map
        Prod.snd).flatten).length +
    (split_data normalize dv shards skip_index q0 data_size).dropped =
    ((shards.drop skip_index).map (fun s => s.2.length)).sum := by
  have H := split_data_outputs normalize dv shards skip_index q0 hds
  rw [H.1, H.2.1, H.2.2.1, H.2.2.2.1]
  exact runRows_length normalize dv (shards.drop skip_index) q0

/-- Witness for C6: one shard of two rows, one routed to test and one
discarded as a word/alignment mismatch; `1 + 0 + 0 + 1 = 2`. -/
theorem c6_row_conservation_witness :
    (((split_data id [] [("s0", [⟨"a", "a"⟩, ⟨"b", "c"⟩])] 0
        ⟨[("a", 1)], [], []⟩ 1).test.out.map Prod.snd).flatten).length +
    (((split_data id [] [("s0", [⟨"a", "a"⟩, ⟨"b", "c"⟩])] 0
        ⟨[("a", 1)], [], []⟩ 1).validation.out.map Prod.snd).flatten).length +
    (((split_data id [] [("s0", [⟨"a", "a"⟩, ⟨"b", "c"⟩])] 0
        ⟨[("a", 1)], [], []⟩ 1).training.out.map Prod.snd).flatten).length +
    (split_data id [] [("s0", [⟨"a", "a"⟩, ⟨"b", "c"⟩])] 0
        ⟨[("a", 1)], [], []⟩ 1).dropped = 2 := by
  have H := c6_row_conservation id [] [("s0", [⟨"a", "a"⟩, ⟨"b", "c"⟩])] 0
    ⟨[("a", 1)], [], []⟩ 1 (by decide)
  simpa using H

/-- Counterexample to C5 as stated: at end of stream an empty remaining
buffer is not flushed into a final output shard.  A run over one shard
whose only row is discarded (word/alignment mismatch) ends with all three
buffers empty and writes no output shard at all, instead of one final
shard per subset. -/
theorem c5_counterexample :
    (split_data id [] [("s0", [⟨"a", "b"⟩])] 0 ⟨[], [], []⟩ 5).test.out = [] ∧
    (split_data id [] [("s0", [⟨"a", "b"⟩])] 0 ⟨[], [], []⟩ 5).validation.out = [] ∧
    (split_data id [] [("s0", [⟨"a", "b"⟩])] 0 ⟨[], [], []⟩ 5).training.out = [] := by
  refine ⟨rfl, rfl, rfl⟩

/-- C5 (amended): whenever a subset's buffer reaches the configured output
shard size, `split_data` slices exactly that many rows (the oldest,
preserving arrival order) into a new output shard whose per-subset index
increments by one, removing them from the buffer; at end of stream each
subset's *non-empty* remaining buffer (smaller than the shard size) is
flushed into one final output shard continuing the index sequence, while
an empty remaining buffer produces no final shard.  Consequently, per
subset: the written shards joined in index order are exactly the rows
routed to that subset in arrival order, every shard holds between 1 and
`data_size` rows, every shard except possibly the last holds exactly
`data_size` rows, and shard indices are consecutive from 0. -/
theorem c5_output_shards (normalize : String → String)
    (dv : List (Nat × String)) (shards : List (String × List Row))
    (skip_index : Nat) (q0 : Quotas) (data_size : Nat) (hds : 0 < data_size) :
    (((split_data normalize dv shards skip_index q0 data_size).test.out.map
        Prod.snd).flatten =
      (runRows normalize dv q0 (shards.drop skip_index)).2.1) ∧
    (((split_data normalize dv shards skip_index q0 data_size).validation.out.map
        Prod.snd).flatten =
      (runRows normalize dv q0 (shards.drop skip_index)).2.2.1) ∧
    (((split_data normalize dv shards skip_index q0 data_size).training.out.map
        Prod.snd).flatten =
      (runRows normalize dv q0 (shards.drop skip_index)).2.2.2.1) ∧
    OutShape data_size
      (split_data normalize dv shards skip_index q0 data_size).test.out ∧
    OutShape data_size
      (split_data normalize dv shards skip_index q0 data_size).validation.out ∧
    OutShape data_size
      (split_data normalize dv shards skip_index q0 data_size).training.out := by
  have H := split_data_outputs normalize dv shards skip_index q0 hds
  exact ⟨H.1, H.2.1, H.2.2.1, H.2.2.2.2.2.1, H.2.2.2.2.2.2.1, H.2.2.2.2.2.2.2⟩

/-- Witness for C5 (amended): three surviving rows of one word with all
quotas empty are routed to training; with `data_size = 2` the run writes
one full training shard of 2 rows and one final shard of 1 row, indexed
consecutively. -/
theorem c5_output_shards_witness :
    OutShape 2 ((split_data id []
      [("s0", [⟨"a", "a"⟩, ⟨"a", "a"⟩, ⟨"a", "a"⟩])] 0
      ⟨[], [], []⟩ 2).training.out) ∧
    (split_data id [] [("s0", [⟨"a", "a"⟩, ⟨"a", "a"⟩, ⟨"a", "a"⟩])] 0
      ⟨[], [], []⟩ 2).training.out =
      [(0, [⟨"a", ("s0", 0)⟩, ⟨"a", ("s0", 1)⟩]), (1, [⟨"a", ("s0", 2)⟩])] := by
  have H := c5_output_shards id []
    [("s0", [⟨"a", "a"⟩, ⟨"a", "a"⟩, ⟨"a", "a"⟩])] 0 ⟨[], [], []⟩ 2 (by decide)
  exact ⟨H.2.2.2.2.2, rfl⟩

theorem processRow_routed_origin (normalize : String → String)
    (dv : List (Nat × String)) (ident : String) (q : Quotas) (i : Nat)
    (row : Row) (r : ORow)
    (h : (processRow normalize dv ident q i row).2 = .toTest r ∨
         (processRow normalize dv ident q i row).2 = .toValidation r ∨
         (processRow normalize dv ident q i row).2 = .toTraining r) :
    r.origin = (ident, i) := by
  simp only [processRow] at h
  rcases h with h | h | h <;> split_ifs at h <;> simp_all <;> simp [← h]

theorem mem_insert_head {r r' : ORow} {A B C : List ORow}
    (h : r' ∈ (r :: A) ++ B ++ C) : r' = r ∨ r' ∈ A ++ B ++ C := by
  simp only [List.mem_append, List.mem_cons] at h ⊢
  tauto

theorem mem_insert_middle {r r' : ORow} {A B C : List ORow}
    (h : r' ∈ (A ++ (r :: B)) ++ C) : r' = r ∨ r' ∈ A ++ B ++ C := by
  simp only [List.mem_append, List.mem_cons] at h ⊢
  tauto

theorem mem_insert_last {r r' : ORow} {A B C : List ORow}
    (h : r' ∈ A ++ B ++ (r :: C)) : r' = r ∨ r' ∈ A ++ B ++ C := by
  simp only [List.mem_append, List.mem_cons] at h ⊢
  tauto

theorem nodup_insert_head {r : ORow} {A B C : List ORow}
    (hnd : ((A ++ B ++ C).map ORow.origin).Nodup)
    (hni : r.origin ∉ (A ++ B ++ C).map ORow.origin) :
    (((r :: A) ++ B ++ C).map ORow.origin).Nodup := by
  have he : (r :: A) ++ B ++ C = r :: (A ++ B ++ C) := by simp
  rw [he]
  simp only [List.map_cons]
  exact List.nodup_cons.2 ⟨hni, hnd⟩

theorem nodup_insert_middle {r : ORow} {A B C : List ORow}
    (hnd : ((A ++ B ++ C).map ORow.origin).Nodup)
    (hni : r.origin ∉ (A ++ B ++ C).map ORow.origin) :
    (((A ++ (r :: B)) ++ C).map ORow.origin).Nodup := by
  have h1 : (A ++ (r :: B)) ++ C = A ++ r :: (B ++ C) := by
    simp [List.append_assoc]
  have h2 : (A ++ r :: (B ++ C)).Perm (r :: (A ++ B ++ C)) := by
    have h3 := @List.perm_middle _ r A (B ++ C)
    have h4 : r :: (A ++ (B ++ C)) = r :: (A ++ B ++ C) := by
      simp [List.append_assoc]
    rw [h4] at h3
    exact h3
  rw [h1, (h2.map ORow.origin).nodup_iff]
  simp only [List.map_cons]
  exact List.nodup_cons.2 ⟨hni, hnd⟩

theorem nodup_insert_last {r : ORow} {A B C : List ORow}
    (hnd : ((A ++ B ++ C).map ORow.origin).Nodup)
    (hni : r.origin ∉ (A ++ B ++ C).map ORow.origin) :
    ((A ++ B ++ (r :: C)).map ORow.origin).Nodup := by
  have h2 : (A ++ B ++ (r :: C)).Perm (r :: (A ++ B ++ C)) :=
    List.perm_middle
  rw [(h2.map ORow.origin).nodup_iff]
  simp only [List.map_cons]
  exact List.nodup_cons.2 ⟨hni, hnd⟩

theorem processRows_origins (normalize : String → String)
    (dv : List (Nat × String)) (ident : String) :
    ∀ (rows : List Row) (q : Quotas) (i : Nat),
    (∀ r ∈ (processRows normalize dv ident q i rows).2.1 ++
        (processRows normalize dv ident q i rows).2.2.1 ++
        (processRows normalize dv ident q i rows).2.2.2.1,
      r.origin.1 = ident ∧ i ≤ r.origin.2 ∧ r.origin.2 < i + rows.length) ∧
    (((processRows normalize dv ident q i rows).2.1 ++
        (processRows normalize dv ident q i rows).2.2.1 ++
        (processRows normalize dv ident q i rows).2.2.2.1).map ORow.origin).Nodup := by
  intro rows
  induction rows with
  | nil =>
    intro q i
    simp [processRows]
  | cons row rest ih =>
    intro q i
    have IH := ih (processRow normalize dv ident q i row).1 (i + 1)
    have hfresh : ∀ r : ORow, r.origin = (ident, i) →
        r.origin ∉ ((processRows normalize dv ident
            (processRow normalize dv ident q i row).1 (i + 1) rest).2.1 ++
          (processRows normalize dv ident
            (processRow normalize dv ident q i row).1 (i + 1) rest).2.2.1 ++
          (processRows normalize dv ident
            (processRow normalize dv ident q i row).1 (i + 1) rest).2.2.2.1).map
            ORow.origin := by
      intro r hor hmem
      rcases List.mem_map.1 hmem with ⟨r', hr', heq⟩
      have hb := IH.1 r' hr'
      have h2 : r'.origin.2 = i := by rw [heq, hor]
      omega
    rcases hact : (processRow normalize dv ident q i row).2 with _ | _ | r | r | r
    · simp only [processRows, hact]
      refine ⟨?_, IH.2⟩
      intro r hr
      have hb := IH.1 r hr
      simp only [List.length_cons]
      exact ⟨hb.1, by omega, by omega⟩
    · simp only [processRows, hact]
      refine ⟨?_, IH.2⟩
      intro r hr
      have hb := IH.1 r hr
      simp only [List.length_cons]
      exact ⟨hb.1, by omega, by omega⟩
    · have hor : r.origin = (ident, i) :=
        processRow_routed_origin _ _ _ _ _ _ _ (Or.inl hact)
      simp only [processRows, hact]
      refine ⟨?_, nodup_insert_head IH.2 (hfresh r hor)⟩
      intro r' hr'
      rcases mem_insert_head hr' with h' | h'
      · have h1 : r'.origin.1 = ident := by rw [h', hor]
        have h2 : r'.origin.2 = i := by rw [h', hor]
        simp only [List.length_cons]
        exact ⟨h1, by omega, by omega⟩
      · have hb := IH.1 r' h'
        simp only [List.length_cons]
        exact ⟨hb.1, by omega, by omega⟩
    · have hor : r.origin = (ident, i) :=
        processRow_routed_origin _ _ _ _ _ _ _ (Or.inr (Or.inl hact))
      simp only [processRows, hact]
      refine ⟨?_, nodup_insert_middle IH.2 (hfresh r hor)⟩
      intro r' hr'
      rcases mem_insert_middle hr' with h' | h'
      · have h1 : r'.origin.1 = ident := by rw [h', hor]
        have h2 : r'.origin.2 = i := by rw [h', hor]
        simp only [List.length_cons]
        exact ⟨h1, by omega, by omega⟩
      · have hb := IH.1 r' h'
        simp only [List.length_cons]
        exact ⟨hb.1, by omega, by omega⟩
    · have hor : r.origin = (ident, i) :=
        processRow_routed_origin _ _ _ _ _ _ _ (Or.inr (Or.inr hact))
      simp only [processRows, hact]
      refine ⟨?_, nodup_insert_last IH.2 (hfresh r hor)⟩
      intro r' hr'
      rcases mem_insert_last hr' with h' | h'
      · have h1 : r'.origin.1 = ident := by rw [h', hor]
        have h2 : r'.origin.2 = i := by rw [h', hor]
        simp only [List.length_cons]
        exact ⟨h1, by omega, by omega⟩
      · have hb := IH.1 r' h'
        simp only [List.length_cons]
        exact ⟨hb.1, by omega, by omega⟩

theorem runRows_origins (normalize : String → String) (dv : List (Nat × String)) :
    ∀ (shards : List (String × List Row)) (q : Quotas),
    ((shards.map Prod.fst).Nodup) →
    (∀ r ∈ (runRows normalize dv q shards).2.1 ++
        (runRows normalize dv q shards).2.2.1 ++
        (runRows normalize dv q shards).2.2.2.1,
      ∃ s ∈ shards, r.origin.1 = s.1 ∧ r.origin.2 < s.2.length) ∧
    (((runRows normalize dv q shards).2.1 ++
        (runRows normalize dv q shards).2.2.1 ++
        (runRows normalize dv q shards).2.2.2.1).map ORow.origin).Nodup := by
  intro shards
  induction shards with
  | nil =>
    intro q _
    simp [runRows]
  | cons shard rest ih =>
    intro q hnd
    simp only [List.map_cons, List.nodup_cons] at hnd
    have IH := ih (processRows normalize dv shard.1 q 0 shard.2).1 hnd.2
    have HP := processRows_origins normalize dv shard.1 shard.2 q 0
    simp only [runRows]
    have hperm : (((processRows normalize dv shard.1 q 0 shard.2).2.1 ++
          (runRows normalize dv
            (processRows normalize dv shard.1 q 0 shard.2).1 rest).2.1) ++
        ((processRows normalize dv shard.1 q 0 shard.2).2.2.1 ++
          (runRows normalize dv
            (processRows normalize dv shard.1 q 0 shard.2).1 rest).2.2.1) ++
        ((processRows normalize dv shard.1 q 0 shard.2).2.2.2.1 ++
          (runRows normalize dv
            (processRows normalize dv shard.1 q 0 shard.2).1 rest).2.2.2.1)).Perm
        (((processRows normalize dv shard.1 q 0 shard.2).2.1 ++
          (processRows normalize dv shard.1 q 0 shard.2).2.2.1 ++
          (processRows normalize dv shard.1 q 0 shard.2).2.2.2.1) ++
         ((runRows normalize dv
            (processRows normalize dv shard.1 q 0 shard.2).1 rest).2.1 ++
          (runRows normalize dv
            (processRows normalize dv shard.1 q 0 shard.2).1 rest).2.2.1 ++
          (runRows normalize dv
            (processRows normalize dv shard.1 q 0 shard.2).1 rest).2.2.2.1)) := by
      rw [List.perm_iff_count]
      intro a
      simp only [List.count_append]
      omega
    constructor
    · intro r hr
      have hr2 := (hperm.mem_iff).1 hr
      rcases List.mem_append.1 hr2 with h' | h'
      · have hb := HP.1 r h'
        refine ⟨shard, List.mem_cons_self _ _, hb.1, ?_⟩
        have := hb.2.2
        omega
      · rcases IH.1 r h' with ⟨s, hs, h1, h2⟩
        exact ⟨s, List.mem_cons_of_mem _ hs, h1, h2⟩
    · rw [(hperm.map ORow.origin).nodup_iff]
      rw [List.map_append]
      apply List.Nodup.append HP.2 IH.2
      rw [List.disjoint_left]
      intro a ha hb
      rcases List.mem_map.1 ha with ⟨r1, hr1, he1⟩
      rcases List.mem_map.1 hb with ⟨r2, hr2, he2⟩
      have hb1 := HP.1 r1 hr1
      rcases IH.1 r2 hr2 with ⟨s, hs, h1, _⟩
      have ha1 : a.1 = shard.1 := by
        rw [← he1]
        exact hb1.1
      have ha2 : a.1 = s.1 := by
        rw [← he2]
        exact h1
      apply hnd.1
      have hss : s.1 = shard.1 := by rw [← ha2, ha1]
      rw [← hss]
      exact List.mem_map_of_mem Prod.fst hs

/-- C7: every row assigned by a `split_data` run carries an `origin` equal
to (source-shard identifier, row index within that shard), and — the
shard identifiers being pairwise distinct, as the
`corpus_as_df_mp_epoch_<n>.pkl` naming scheme guarantees — no two rows
across all test, validation and training output shards share an origin. -/
theorem c7_origin_uniqueness (normalize : String → String)
    (dv : List (Nat × String)) (shards : List (String × List Row))
    (skip_index : Nat) (q0 : Quotas) (data_size : Nat) (hds : 0 < data_size)
    (hids : (shards.map Prod.fst).Nodup) :
    (∀ r ∈ ((split_data normalize dv shards skip_index q0 data_size).test.out.map
          Prod.snd).flatten ++
        ((split_data normalize dv shards skip_index q0 data_size).validation.out.map
          Prod.snd).flatten ++
        ((split_data normalize dv shards skip_index q0 data_size).training.out.map
          Prod.snd).flatten,
      ∃ s ∈ shards.drop skip_index, r.origin.1 = s.1 ∧ r.origin.2 < s.2.length) ∧
    ((((split_data normalize dv shards skip_index q0 data_size).test.out.map
          Prod.snd).flatten ++
      ((split_data normalize dv shards skip_index q0 data_size).validation.out.map
          Prod.snd).flatten ++
      ((split_data normalize dv shards skip_index q0 data_size).training.out.map
          Prod.snd).flatten).map ORow.origin).Nodup := by
  have H := split_data_outputs normalize dv shards skip_index q0 hds
  rw [H.1, H.2.1, H.2.2.1]
  have hnd' : ((shards.drop skip_index).map Prod.fst).Nodup :=
    ((List.drop_sublist skip_index shards).map Prod.fst).nodup hids
  exact runRows_origins normalize dv (shards.drop skip_index) q0 hnd'

/-- Witness for C7: two one-row shards with distinct identifiers, both
rows routed to training; their origins `(s0, 0)` and `(s1, 0)` differ. -/
theorem c7_origin_uniqueness_witness :
    ((((split_data id [] [("s0", [⟨"a", "a"⟩]), ("s1", [⟨"a", "a"⟩])] 0
          ⟨[], [], []⟩ 5).test.out.map Prod.snd).flatten ++
      ((split_data id [] [("s0", [⟨"a", "a"⟩]), ("s1", [⟨"a", "a"⟩])] 0
          ⟨[], [], []⟩ 5).validation.out.map Prod.snd).flatten ++
      ((split_data id [] [("s0", [⟨"a", "a"⟩]), ("s1", [⟨"a", "a"⟩])] 0
          ⟨[], [], []⟩ 5).training.out.map Prod.snd).flatten).map
        ORow.origin).Nodup := by
  have H := c7_origin_uniqueness id []
    [("s0", [⟨"a", "a"⟩]), ("s1", [⟨"a", "a"⟩])] 0 ⟨[], [], []⟩ 5
    (by decide) (by decide)
  exact H.2

/-- `pad_tensor` (`train_forward.py` lines 83–103) on a sequence of
timesteps: raises (ValueError) when the sequence exceeds the target length
and `allow_longer` is not set; a sequence of exactly the target length is
returned unchanged with an all-true mask; otherwise the final timestep
(`tensor[-1]`, an IndexError on an empty sequence) is repeated up to the
target length, with a mask that is true on the original timesteps and
false on the padding. -/
def pad_tensor {τ : Type} (tensor : List τ) (target_length : Nat)
    (allow_longer : Bool) : Except String (List τ × List Bool) :=
  if target_length < tensor.length ∧ allow_longer = false then
    .error "ValueError: current length exceeds target"
  else if tensor.length = target_length then
    .ok (tensor, List.replicate target_length true)
  else
    match tensor.getLast? with
    | none => .error "IndexError: tensor[-1] on an empty tensor"
    | some last =>
      .ok (tensor ++ List.replicate (target_length - tensor.length) last,
        List.replicate tensor.length true ++
          List.replicate (target_length - tensor.length) false)

/-- The per-sample loop of `collate_batch_with_padding` (lines 117–126):
each sample's spectrogram is padded to `max_length_melspecs` and its mask
kept, the articulatory sequence is padded to `max_length_cps` and that
mask discarded, then `assert padded_cp.shape[0] == padded_melspec.shape[0] * 2`
(line 123) is checked. -/
def collate_loop {τ : Type} (max_length_cps max_length_melspecs : Nat) :
    List (List τ × List τ) →
    Except String (List (List τ) × List (List τ) × List (List Bool))
  | [] => .ok ([], [], [])
  | sample :: rest =>
    match pad_tensor sample.2 max_length_melspecs false with
    | .error e => .error e
    | .ok pm =>
      match pad_tensor sample.1 max_length_cps false with
      | .error e => .error e
      | .ok pc =>
        if pc.1.length = pm.1.length * 2 then
          match collate_loop max_length_cps max_length_melspecs rest with
          | .error e => .error e
          | .ok next => .ok (pc.1 :: next.1, pm.1 :: next.2.1, pm.2 :: next.2.2)
        else .error "AssertionError: shapes"

/-- `collate_batch_with_padding` (lines 106–130) with the internal mask
list exposed: `max_length_cps` is the maximum articulatory length in the
batch (Python `max(...)` raises on an empty batch) and
`max_length_melspecs = max_length_cps // 2`. -/
def collate_core {τ : Type} (batch : List (List τ × List τ)) :
    Except String (List (List τ) × List (List τ) × List (List Bool)) :=
  match batch with
  | [] => .error "ValueError: max() arg is an empty sequence"
  | _ :: _ =>
    let max_length_cps := (batch.map (fun sample => sample.1.length)).foldr max 0
    collate_loop max_length_cps (max_length_cps / 2) batch

/-- The return value of `collate_batch_with_padding` (line 130): the
stacked padded articulatory and spectrogram sequences; the collected
masks are dropped. -/
def collate_batch_with_padding {τ : Type} (batch : List (List τ × List τ)) :
    Except String (List (List τ) × List (List τ)) :=
  (collate_core batch).map (fun r => (r.1, r.2.1))

/-- Padding by repetition of the final timestep, as `pad_tensor` performs
it on a non-empty sequence. -/
def padWithLast {τ : Type} (l : List τ) (target : Nat) : List τ :=
  match l.getLast? with
  | none => l
  | some x => l ++ List.replicate (target - l.length) x

/-- The validity mask `pad_tensor` produces: true on the original
timesteps, false on the padding. -/
def padMask (current target : Nat) : List Bool :=
  List.replicate current true ++ List.replicate (target - current) false

/-- `torch.argsort` over the articulatory sequence lengths
(`AccedingSequenceLengthBatchSampler.__iter__`, `train_forward.py` line
70): the example indices in ascending order of length (modelled with a
deterministic stable sort; `torch.argsort` promises some ascending
order). -/
def argsortAsc (sizes : List Nat) : List Nat :=
  (List.range sizes.length).insertionSort
    (fun i j => sizes.getD i 0 ≤ sizes.getD j 0)

/-- The batch slicing `[indices[i:i+batch_size] for i in range(0, len(indices), batch_size)]`
(line 71), as fuel-bounded recursion; `fuel = indices.length` iterations
always suffice when `batch_size ≥ 1`. -/
def chunksLoop {α : Type} (batch_size : Nat) : Nat → List α → List (List α)
  | 0, _ => []
  | _, [] => []
  | fuel + 1, l => l.take batch_size :: chunksLoop batch_size fuel (l.drop batch_size)

/-- `AccedingSequenceLengthBatchSampler.__iter__` (lines 69–75): argsort
the lengths, slice the sorted index list into batches, and — when
`drop_last` is set — read `batches[-1]` (an IndexError when the batch list
is empty) and pop a short final batch.  A zero batch size makes
`range(0, n, 0)` raise before anything is yielded. -/
def sampler_iter (sizes : List Nat) (batch_size : Nat) (drop_last : Bool) :
    Except String (List (List Nat)) :=
  if batch_size = 0 then .error "ValueError: range() arg 3 must not be zero"
  else
    let indices := argsortAsc sizes
    let batches := chunksLoop batch_size indices.length indices
    if drop_last then
      match batches.getLast? with
      | none => .error "IndexError: list index out of range"
      | some lastB =>
        .ok (if lastB.length < batch_size then batches.dropLast else batches)
    else .ok batches

/-- Counterexample to C4 as stated: for articulatory lengths [6, 4, 10]
the mask produced for the length-4 example comes from padding its
*spectrogram* (length 2) to 5 — it is `[1, 1, 0, 0, 0]` at spectrogram
scale, not the articulatory-scale `[1, 1, 1, 1, 0, 0, 0, 0, 0, 0]` the
claim requires. -/
theorem c4_counterexample :
    ((collate_core [(List.range 6, List.range 3), (List.range 4, List.range 2),
        (List.range 10, List.range 5)]).map (fun r => r.2.2[1]?) =
      .ok (some [true, true, false, false, false])) ∧
    (some [true, true, false, false, false] ≠
      some [true, true, true, true, false, false,
        false, false, false, false]) := by
  constructor
  · rfl
  · decide

theorem pad_tensor_ok {τ : Type} (l : List τ) (target : Nat)
    (hne : l ≠ []) (hle : l.length ≤ target) :
    pad_tensor l target false = .ok (padWithLast l target, padMask l.length target) := by
  obtain ⟨x, hx⟩ : ∃ x, l.getLast? = some x := by
    rcases l with _ | ⟨a, t⟩
    · exact absurd rfl hne
    · exact ⟨(a :: t).getLast (by simp), List.getLast?_eq_getLast _ (by simp)⟩
  unfold pad_tensor padWithLast padMask
  rw [if_neg (by omega)]
  by_cases heq : l.length = target
  · rw [if_pos heq, hx]
    have h0 : target - l.length = 0 := by omega
    rw [h0, heq]
    simp
  · rw [if_neg heq, hx]

theorem padWithLast_length {τ : Type} (l : List τ) (target : Nat)
    (hne : l ≠ []) (hle : l.length ≤ target) :
    (padWithLast l target).length = target := by
  obtain ⟨x, hx⟩ : ∃ x, l.getLast? = some x := by
    rcases l with _ | ⟨a, t⟩
    · exact absurd rfl hne
    · exact ⟨(a :: t).getLast (by simp), List.getLast?_eq_getLast _ (by simp)⟩
  unfold padWithLast
  rw [hx]
  simp
  omega

theorem collate_loop_ok {τ : Type} (M : Nat) (hM2 : M % 2 = 0) :
    ∀ (batch : List (List τ × List τ)),
    (∀ s ∈ batch, s.1.length = 2 * s.2.length ∧ 1 ≤ s.2.length ∧ s.1.length ≤ M) →
    collate_loop M (M / 2) batch = .ok
      (batch.map (fun s => padWithLast s.1 M),
       batch.map (fun s => padWithLast s.2 (M / 2)),
       batch.map (fun s => padMask s.2.length (M / 2))) := by
  intro batch
  induction batch with
  | nil =>
    intro _
    rfl
  | cons sample rest ih =>
    intro hb
    obtain ⟨h1, h2, h3⟩ := hb sample (List.mem_cons_self _ _)
    have hs1ne : sample.1 ≠ [] := by
      intro h
      have h0 : sample.1.length = 0 := by rw [h]; rfl
      omega
    have hs2ne : sample.2 ≠ [] := by
      intro h
      have h0 : sample.2.length = 0 := by rw [h]; rfl
      omega
    have hs2le : sample.2.length ≤ M / 2 := by
      rw [h1] at h3
      omega
    have hpm := pad_tensor_ok sample.2 (M / 2) hs2ne hs2le
    have hpc := pad_tensor_ok sample.1 M hs1ne (by omega)
    have hlc : (padWithLast sample.1 M).length = M :=
      padWithLast_length _ _ hs1ne (by omega)
    have hlm : (padWithLast sample.2 (M / 2)).length = M / 2 :=
      padWithLast_length _ _ hs2ne hs2le
    have hih := ih (fun s hs => hb s (List.mem_cons_of_mem _ hs))
    simp only [collate_loop, hpm, hpc]
    rw [hlc, hlm]
    rw [if_pos (by omega)]
    simp only [hih]
    simp

theorem le_foldr_max (xs : List Nat) : ∀ x ∈ xs, x ≤ xs.foldr max 0 := by
  induction xs with
  | nil => simp
  | cons a t ih =>
    intro x hx
    rcases List.mem_cons.1 hx with h | h
    · subst h
      show x ≤ max x (t.foldr max 0)
      exact Nat.le_max_left _ _
    · show x ≤ max a (t.foldr max 0)
      exact Nat.le_trans (ih x h) (Nat.le_max_right _ _)

theorem even_foldr_max (xs : List Nat) (h : ∀ x ∈ xs, x % 2 = 0) :
    (xs.foldr max 0) % 2 = 0 := by
  induction xs with
  | nil => rfl
  | cons a t ih =>
    have ha := h a (List.mem_cons_self _ _)
    have ht := ih (fun x hx => h x (List.mem_cons_of_mem _ hx))
    show (max a (t.foldr max 0)) % 2 = 0
    rcases max_choice a (t.foldr max 0) with hm | hm <;> rw [hm]
    · exact ha
    · exact ht

/-- C4 (amended): for every non-empty batch in which each example's
articulatory length is exactly twice its (non-empty) spectrogram length,
`collate_batch_with_padding` pads every articulatory sequence to the
batch's maximum articulatory length `M` and every spectrogram sequence to
`M / 2`, each by repeating its final timestep; but the validity mask
produced for each example is at *spectrogram* scale — it has length
`M / 2` and is true exactly on the example's original spectrogram
timesteps (it comes from padding the spectrogram; the articulatory mask
is discarded), not at articulatory scale as the claim states. -/
theorem c4_collate_masks {τ : Type} (batch : List (List τ × List τ))
    (hne : batch ≠ [])
    (hratio : ∀ s ∈ batch, s.1.length = 2 * s.2.length ∧ 1 ≤ s.2.length) :
    collate_core batch = .ok
      (batch.map (fun s => padWithLast s.1
        ((batch.map (fun s2 => s2.1.length)).foldr max 0)),
       batch.map (fun s => padWithLast s.2
        ((batch.map (fun s2 => s2.1.length)).foldr max 0 / 2)),
       batch.map (fun s => padMask s.2.length
        ((batch.map (fun s2 => s2.1.length)).foldr max 0 / 2))) ∧
    collate_batch_with_padding batch = .ok
      (batch.map (fun s => padWithLast s.1
        ((batch.map (fun s2 => s2.1.length)).foldr max 0)),
       batch.map (fun s => padWithLast s.2
        ((batch.map (fun s2 => s2.1.length)).foldr max 0 / 2))) ∧
    (∀ pc ∈ batch.map (fun s => padWithLast s.1
        ((batch.map (fun s2 => s2.1.length)).foldr max 0)),
      pc.length = (batch.map (fun s2 => s2.1.length)).foldr max 0) ∧
    (∀ k ∈ batch.map (fun s => padMask s.2.length
        ((batch.map (fun s2 => s2.1.length)).foldr max 0 / 2)),
      k.length = (batch.map (fun s2 => s2.1.length)).foldr max 0 / 2) := by
  have hM2 : ((batch.map (fun s2 => s2.1.length)).foldr max 0) % 2 = 0 := by
    apply even_foldr_max
    intro x hx
    rcases List.mem_map.1 hx with ⟨s, hs, he⟩
    have h1 := (hratio s hs).1
    rw [← he, h1]
    omega
  have hcore : collate_core batch =
      collate_loop ((batch.map (fun s2 => s2.1.length)).foldr max 0)
        ((batch.map (fun s2 => s2.1.length)).foldr max 0 / 2) batch := by
    cases batch with
    | nil => exact absurd rfl hne
    | cons a t => rfl
  have hloop := collate_loop_ok ((batch.map (fun s2 => s2.1.length)).foldr max 0)
    hM2 batch (fun s hs => ⟨(hratio s hs).1, (hratio s hs).2,
      le_foldr_max _ _ (List.mem_map_of_mem (fun s2 => s2.1.length) hs)⟩)
  have hmain := hcore.trans hloop
  refine ⟨hmain, ?_, ?_, ?_⟩
  · unfold collate_batch_with_padding
    rw [hmain]
    rfl
  · intro pc hpc
    rcases List.mem_map.1 hpc with ⟨s, hs, he⟩
    have h1 := (hratio s hs).1
    have h2 := (hratio s hs).2
    have hs1ne : s.1 ≠ [] := by
      intro h
      have h0 : s.1.length = 0 := by rw [h]; rfl
      omega
    rw [← he]
    exact padWithLast_length _ _ hs1ne
      (le_foldr_max _ _ (List.mem_map_of_mem (fun s2 => s2.1.length) hs))
  · intro k hk
    rcases List.mem_map.1 hk with ⟨s, hs, he⟩
    have h1 := (hratio s hs).1
    have h3 : s.1.length ≤ (batch.map (fun s2 => s2.1.length)).foldr max 0 :=
      le_foldr_max _ _ (List.mem_map_of_mem (fun s2 => s2.1.length) hs)
    have h4 : s.2.length ≤ (batch.map (fun s2 => s2.1.length)).foldr max 0 / 2 := by
      omega
    rw [← he]
    unfold padMask
    simp
    omega

/-- Witness for C4 (amended), at the batch with articulatory lengths
[6, 4, 10]: the padded sequences and the spectrogram-scale masks, fully
evaluated. -/
theorem c4_collate_masks_witness :
    collate_core [(List.range 6, List.range 3), (List.range 4, List.range 2),
        (List.range 10, List.range 5)] = .ok
      ([[0, 1, 2, 3, 4, 5, 5, 5, 5, 5], [0, 1, 2, 3, 3, 3, 3, 3, 3, 3],
        [0, 1, 2, 3, 4, 5, 6, 7, 8, 9]],
       [[0, 1, 2, 2, 2], [0, 1, 1, 1, 1], [0, 1, 2, 3, 4]],
       [[true, true, true, false, false], [true, true, false, false, false],
        [true, true, true, true, true]]) := by
  have H := c4_collate_masks
    [(List.range 6, List.range 3), (List.range 4, List.range 2),
      (List.range 10, List.range 5)] (by decide) (by decide)
  rw [H.1]
  rfl

theorem chunksLoop_nil {α : Type} (batch_size fuel : Nat) :
    @chunksLoop α batch_size fuel [] = [] := by
  cases fuel <;> rfl

theorem chunksLoop_char {α : Type} {batch_size : Nat} (hbs : 0 < batch_size) :
    ∀ (fuel : Nat) (l : List α), l.length ≤ fuel →
    ((chunksLoop batch_size fuel l).flatten = l) ∧
    (∀ b ∈ chunksLoop batch_size fuel l, b ≠ [] ∧ b.length ≤ batch_size) ∧
    (∀ b ∈ (chunksLoop batch_size fuel l).dropLast, b.length = batch_size) ∧
    (chunksLoop batch_size fuel l = [] ↔ l = []) := by
  intro fuel
  induction fuel with
  | zero =>
    intro l hlen
    have hl : l = [] := List.length_eq_zero.1 (Nat.le_zero.1 hlen)
    subst hl
    simp [chunksLoop]
  | succ fuel ih =>
    intro l hlen
    cases l with
    | nil => simp [chunksLoop]
    | cons a t =>
      have hrec := ih ((a :: t).drop batch_size)
        (by simp only [List.length_drop, List.length_cons] at hlen ⊢; omega)
      have hstep : chunksLoop batch_size (fuel + 1) (a :: t) =
          (a :: t).take batch_size ::
            chunksLoop batch_size fuel ((a :: t).drop batch_size) := rfl
      rw [hstep]
      refine ⟨?_, ?_, ?_, by simp⟩
      · simp only [List.flatten_cons]
        rw [hrec.1]
        exact List.take_append_drop _ _
      · intro b hb
        rcases List.mem_cons.1 hb with h | h
        · subst h
          constructor
          · rw [Ne, List.take_eq_nil_iff]
            push_neg
            exact ⟨by omega, by simp⟩
          · rw [List.length_take]
            simp
          
        · exact hrec.2.1 b h
      · intro b hb
        by_cases hrest : chunksLoop batch_size fuel ((a :: t).drop batch_size) = []
        · rw [hrest, List.dropLast_single] at hb
          simp at hb
        · rw [List.dropLast_cons_of_ne_nil hrest] at hb
          rcases List.mem_cons.1 hb with h | h
          · subst h
            have hd : (a :: t).drop batch_size ≠ [] := by
              intro h'
              exact hrest (by rw [h']; exact chunksLoop_nil _ _)
            have hlen2 : batch_size < (a :: t).length := by
              by_contra hcon
              push_neg at hcon
              exact hd (List.drop_eq_nil_of_le hcon)
            rw [List.length_take]
            omega
          · exact hrec.2.2.1 b h

theorem argsortAsc_perm (sizes : List Nat) :
    (argsortAsc sizes).Perm (List.range sizes.length) :=
  List.perm_insertionSort _ _

theorem argsortAsc_sorted (sizes : List Nat) :
    List.Pairwise (fun i j => sizes.getD i 0 ≤ sizes.getD j 0)
      (argsortAsc sizes) := by
  haveI ht : IsTotal Nat (fun i j => sizes.getD i 0 ≤ sizes.getD j 0) :=
    ⟨fun a b => Nat.le_total _ _⟩
  haveI htr : IsTrans Nat (fun i j => sizes.getD i 0 ≤ sizes.getD j 0) :=
    ⟨fun a b c hab hbc => Nat.le_trans hab hbc⟩
  exact List.sorted_insertionSort _ _

theorem sampler_iter_false_eq (sizes : List Nat) (batch_size : Nat)
    (hbs : 0 < batch_size) :
    sampler_iter sizes batch_size false =
      .ok (chunksLoop batch_size (argsortAsc sizes).length (argsortAsc sizes)) := by
  unfold sampler_iter
  rw [if_neg (by omega)]
  rfl

theorem sampler_iter_true_eq (sizes : List Nat) (batch_size : Nat)
    (hbs : 0 < batch_size) {lastB : List Nat}
    (h : (chunksLoop batch_size (argsortAsc sizes).length
        (argsortAsc sizes)).getLast? = some lastB) :
    sampler_iter sizes batch_size true =
      .ok (if lastB.length < batch_size
        then (chunksLoop batch_size (argsortAsc sizes).length
          (argsortAsc sizes)).dropLast
        else chunksLoop batch_size (argsortAsc sizes).length (argsortAsc sizes)) := by
  unfold sampler_iter
  rw [if_neg (by omega)]
  simp only []
  rw [h]
  simp

/-- Counterexample to C9 as stated: it quantifies over every dataset, but
for an empty dataset with `drop_last` set the iteration raises an
IndexError (reading `batches[-1]` of an empty batch list) instead of
yielding the empty sequence of chunks with nothing to discard. -/
theorem c9_counterexample :
    sampler_iter [] 2 true = .error "IndexError: list index out of range" := by
  rfl

/-- C9 (amended): for every *positive* batch size, iterating the sampler
with `drop_last = False` yields the example indices sorted ascending by
articulatory-sequence length and cut into contiguous chunks of the batch
size — each chunk non-empty and of the batch size except possibly a
shorter final chunk; with `drop_last = True` over a *non-empty* dataset a
short final chunk is discarded (over an empty dataset the iteration
raises instead — see the empty-source behaviour).  With batch size 2 over
lengths [5, 1, 3] it yields [[1, 2], [0]], and [[1, 2]] under drop-last. -/
theorem c9_sampler (sizes : List Nat) (batch_size : Nat) (hbs : 0 < batch_size) :
    (∃ batches, sampler_iter sizes batch_size false = .ok batches ∧
      batches.flatten.Perm (List.range sizes.length) ∧
      List.Pairwise (fun i j => sizes.getD i 0 ≤ sizes.getD j 0)
        batches.flatten ∧
      (∀ b ∈ batches, b ≠ [] ∧ b.length ≤ batch_size) ∧
      (∀ b ∈ batches.dropLast, b.length = batch_size) ∧
      (sizes ≠ [] → ∃ lastB, batches.getLast? = some lastB ∧
        sampler_iter sizes batch_size true =
          .ok (if lastB.length < batch_size then batches.dropLast
            else batches))) ∧
    sampler_iter [5, 1, 3] 2 false = .ok [[1, 2], [0]] ∧
    sampler_iter [5, 1, 3] 2 true = .ok [[1, 2]] := by
  refine ⟨?_, by rfl, by rfl⟩
  have hchar := chunksLoop_char hbs (argsortAsc sizes).length (argsortAsc sizes)
    (Nat.le_refl _)
  refine ⟨chunksLoop batch_size (argsortAsc sizes).length (argsortAsc sizes),
    sampler_iter_false_eq sizes batch_size hbs, ?_, ?_, hchar.2.1, hchar.2.2.1, ?_⟩
  · rw [hchar.1]
    exact argsortAsc_perm sizes
  · rw [hchar.1]
    exact argsortAsc_sorted sizes
  · intro hne
    have hargne : argsortAsc sizes ≠ [] := by
      intro h
      have hl := (argsortAsc_perm sizes).length_eq
      rw [h] at hl
      simp at hl
      exact hne (List.length_eq_zero.1 hl.symm)
    have hbne : chunksLoop batch_size (argsortAsc sizes).length
        (argsortAsc sizes) ≠ [] := by
      intro h
      exact hargne (hchar.2.2.2.1 h)
    refine ⟨(chunksLoop batch_size (argsortAsc sizes).length
        (argsortAsc sizes)).getLast hbne,
      List.getLast?_eq_getLast _ hbne, ?_⟩
    exact sampler_iter_true_eq sizes batch_size hbs
      (List.getLast?_eq_getLast _ hbne)

/-- Witness for C9 (amended) at lengths [5, 1, 3] and batch size 2. -/
theorem c9_sampler_witness :
    sampler_iter [5, 1, 3] 2 false = .ok [[1, 2], [0]] ∧
    sampler_iter [5, 1, 3] 2 true = .ok [[1, 2]] :=
  (c9_sampler [5, 1, 3] 2 (by decide)).2

/-- C10: for an empty data source, iterating the sampler with
`drop_last = False` yields no batches, but with `drop_last = True` the
drop-last check reads the last element of the empty batch list and the
iteration fails with an out-of-range indexing error instead of yielding
no batches. -/
theorem c10_empty_sampler (batch_size : Nat) (hbs : 0 < batch_size) :
    sampler_iter [] batch_size false = .ok [] ∧
    sampler_iter [] batch_size true =
      .error "IndexError: list index out of range" := by
  constructor <;>
  · unfold sampler_iter
    rw [if_neg (by omega)]
    rfl

/-- Witness for C10 at the concrete batch size 2. -/
theorem c10_empty_sampler_witness :
    sampler_iter [] 2 false = .ok [] ∧
    sampler_iter [] 2 true = .error "IndexError: list index out of range" :=
  c10_empty_sampler 2 (by decide)
